import Mathlib

/-!
Verification of the UPI QR payment generator (`qr.py`).

The development shallowly embeds the two logic-bearing parts of the program:

* `build_upi_payload` — validation and construction of the `upi://pay?...`
  deep link, including Python's `urllib.parse.urlencode` percent-encoding
  (`quote_plus` on each key and value, pairs joined by `&`) and the
  `f"{amount:.2f}"` amount formatting (round-half-to-even, two fractional
  digits), with floats modelled as rationals.
* `create_qr` — the configuration of the QR/image library calls made by
  `QRService.create_qr`, recorded as a plain data value since the QR and
  image libraries are external primitives.

Strings are modelled as `List Char` (Python strings are sequences of code
points); percent-encoding works on the UTF-8 bytes of each code point, as
`urllib.parse.quote` does.
-/

deriving instance DecidableEq for Except

namespace UPIQR

/-- Whitespace characters removed by Python's `str.strip()` (ASCII part). -/
def isPySpace (c : Char) : Bool :=
  c == ' ' || c == '\t' || c == '\n' || c == '\r' || c == '\x0b' || c == '\x0c'

/-- Python `str.strip()`: drop leading and trailing whitespace. -/
def pyStrip (s : List Char) : List Char :=
  ((s.dropWhile isPySpace).reverse.dropWhile isPySpace).reverse

/-- Characters `urllib.parse.quote` never escapes (its `always_safe` set):
ASCII letters, digits, and `_ . - ~`.  `urlencode` passes `safe=''`, so no
further character is safe. -/
def isSafeChar (c : Char) : Bool :=
  c.isAlpha || c.isDigit || c == '_' || c == '.' || c == '-' || c == '~'

/-- Uppercase hexadecimal digit, as `urllib.parse.quote` emits in `%XX`. -/
def hexDigitChar (d : Nat) : Char :=
  if d < 10 then Char.ofNat (48 + d) else Char.ofNat (55 + d)

/-- Decimal digit character. -/
def decDigit (d : Nat) : Char := Char.ofNat (48 + d)

/-- UTF-8 encoding of a code point (1–4 bytes). -/
def utf8Bytes (n : Nat) : List Nat :=
  if n < 128 then [n]
  else if n < 2048 then [192 + n / 64, 128 + n % 64]
  else if n < 65536 then [224 + n / 4096, 128 + n / 64 % 64, 128 + n % 64]
  else [240 + n / 262144, 128 + n / 4096 % 64, 128 + n / 64 % 64, 128 + n % 64]

/-- The three characters `%XX` escaping one byte. -/
def escByte (b : Nat) : List Char :=
  ['%', hexDigitChar (b / 16), hexDigitChar (b % 16)]

/-- How `urllib.parse.quote_plus` renders a single character: space becomes
`+`, safe characters pass through, anything else becomes the `%XX` escapes
of its UTF-8 bytes. -/
def quoteChar (c : Char) : List Char :=
  if c == ' ' then ['+']
  else if isSafeChar c then [c]
  else (utf8Bytes c.toNat).foldr (fun b acc => escByte b ++ acc) []

/-- `urllib.parse.quote_plus` on a whole string. -/
def quote_plus (s : List Char) : List Char :=
  s.foldr (fun c acc => quoteChar c ++ acc) []

/-- One `key=value` fragment of `urllib.parse.urlencode`. -/
def encPair (p : List Char × List Char) : List Char :=
  quote_plus p.1 ++ '=' :: quote_plus p.2

/-- `urllib.parse.urlencode`: `quote_plus` each key and value, join the
pairs with `&` (insertion order preserved, as for a Python dict). -/
def urlencode : List (List Char × List Char) → List Char
  | [] => []
  | [p] => encPair p
  | p :: q :: ps => encPair p ++ '&' :: urlencode (q :: ps)

/-- Value of a hexadecimal digit character, either case. -/
def hexVal (c : Char) : Option Nat :=
  let n := c.toNat
  if 48 ≤ n && n ≤ 57 then some (n - 48)
  else if 65 ≤ n && n ≤ 70 then some (n - 55)
  else if 97 ≤ n && n ≤ 102 then some (n - 87) else none

/-- Read one `%XX` escape from the front of a string. -/
def readEsc : List Char → Option (Nat × List Char)
  | '%' :: c1 :: c2 :: r =>
    match hexVal c1, hexVal c2 with
    | some h, some l => some (16 * h + l, r)
    | _, _ => none
  | _ => none

/-- UTF-8 continuation byte test. -/
def isContByte (b : Nat) : Bool := 128 ≤ b && b < 192

/-- U+FFFD, the replacement character a lenient decoder substitutes for a
malformed escape sequence. -/
def replChar : Char := Char.ofNat 65533

/-- Decode the escape sequence(s) of one code point from the front of the
string: read the lead byte's `%XX`, then as many continuation-byte escapes
as UTF-8 prescribes, substituting U+FFFD for malformed sequences.  Returns
the decoded character and the remaining input. -/
def readEncoded (s : List Char) : Option (Char × List Char) :=
  match readEsc s with
  | none => none
  | some (b0, r0) =>
    if b0 < 128 then some (Char.ofNat b0, r0)
    else if b0 < 194 then some (replChar, r0)
    else if b0 < 224 then
      match readEsc r0 with
      | some (b1, r1) =>
        if isContByte b1 then some (Char.ofNat ((b0 - 192) * 64 + (b1 - 128)), r1)
        else some (replChar, r0)
      | none => some (replChar, r0)
    else if b0 < 240 then
      match readEsc r0 with
      | some (b1, r1) =>
        if isContByte b1 then
          match readEsc r1 with
          | some (b2, r2) =>
            if isContByte b2 then
              some (Char.ofNat ((b0 - 224) * 4096 + (b1 - 128) * 64 + (b2 - 128)), r2)
            else some (replChar, r0)
          | none => some (replChar, r0)
        else some (replChar, r0)
      | none => some (replChar, r0)
    else if b0 < 248 then
      match readEsc r0 with
      | some (b1, r1) =>
        if isContByte b1 then
          match readEsc r1 with
          | some (b2, r2) =>
            if isContByte b2 then
              match readEsc r2 with
              | some (b3, r3) =>
                if isContByte b3 then
                  some (Char.ofNat ((b0 - 240) * 262144 + (b1 - 128) * 4096 +
                    (b2 - 128) * 64 + (b3 - 128)), r3)
                else some (replChar, r0)
              | none => some (replChar, r0)
            else some (replChar, r0)
          | none => some (replChar, r0)
        else some (replChar, r0)
      | none => some (replChar, r0)
    else some (replChar, r0)

/-- Fuel-driven core of `unquotePlus`: `+` becomes a space, the `%XX`
escapes of one code point are decoded by `readEncoded`, everything else
passes through.  One unit of fuel is spent per produced character, so
`fuel = length of the input` always suffices. -/
def unquoteAux : Nat → List Char → List Char
  | 0, _ => []
  | _ + 1, [] => []
  | fuel + 1, c :: r =>
    if c == '+' then ' ' :: unquoteAux fuel r
    else if c == '%' then
      match readEncoded (c :: r) with
      | none => c :: unquoteAux fuel r
      | some (d, r1) => d :: unquoteAux fuel r1
    else c :: unquoteAux fuel r

/-- `urllib.parse.unquote_plus`: percent-decoding with `+` as space. -/
def unquotePlus (s : List Char) : List Char := unquoteAux s.length s

/-- Split a string at every occurrence of a separator character. -/
def splitSep (sep : Char) : List Char → List (List Char)
  | [] => [[]]
  | c :: r =>
    match splitSep sep r with
    | [] => [[]]
    | g :: gs => if c == sep then [] :: g :: gs else (c :: g) :: gs

/-- Split a string at the first `=` into key and value. -/
def splitEq : List Char → List Char × List Char
  | [] => ([], [])
  | c :: r =>
    if c == '=' then ([], r)
    else ((splitEq r).1.cons c, (splitEq r).2)

/-- Percent-decode a query string into a list of decoded key/value pairs:
split on `&`, split each piece at its first `=`, `unquote_plus` both sides. -/
def parseQS (s : List Char) : List (List Char × List Char) :=
  (splitSep '&' s).map fun kv => (unquotePlus (splitEq kv).1, unquotePlus (splitEq kv).2)

/-- The query string of a `upi://pay?...` URI (everything after the 10
characters of `upi://pay?`). -/
def queryOf (uri : List Char) : List Char := uri.drop 10

/-- The decoded parameter keys of a `upi://pay?...` URI. -/
def queryKeys (uri : List Char) : List (List Char) :=
  (parseQS (queryOf uri)).map Prod.fst

/-- Round `a / b` (for `b > 0`) to the nearest integer, ties to even —
the rounding IEEE-754 applies when Python formats a float with `"%.2f"` —
computed with integer floor division and remainder. -/
def rheInt (a b : ℤ) : ℤ :=
  if 2 * (a % b) < b then a / b
  else if b < 2 * (a % b) then a / b + 1
  else if (a / b) % 2 = 0 then a / b else a / b + 1

/-- The amount in cents serialized by `f"{amount:.2f}"`: the value
`amount * 100` rounded half-to-even, computed on the rational's numerator
and denominator. -/
def amountCents (q : ℚ) : ℤ := rheInt (q.num * 100) (q.den : ℤ)

/-- Digit-accumulator loop for decimal printing. -/
def natDigitsAux : Nat → Nat → List Char → List Char
  | 0, _, acc => acc
  | fuel + 1, n, acc =>
    if n < 10 then decDigit n :: acc
    else natDigitsAux fuel (n / 10) (decDigit (n % 10) :: acc)

/-- Decimal digits of a natural number, most significant first. -/
def natDigits (n : Nat) : List Char := natDigitsAux (n + 1) n []

/-- Exactly-two-digit rendering of a number of cents below 100. -/
def twoDigits (r : Nat) : List Char := [decDigit (r / 10), decDigit (r % 10)]

/-- Python's `f"{amount:.2f}"`: the amount rounded to whole cents and
printed with exactly two digits after the decimal point.  (The negative
branch is unreachable in `build_upi_payload`, which rejects
`amount ≤ 0` before formatting.) -/
def formatAmount (q : ℚ) : List Char :=
  if amountCents q < 0 then
    '-' :: (natDigits ((amountCents q).natAbs / 100) ++
      '.' :: twoDigits ((amountCents q).natAbs % 100))
  else
    natDigits ((amountCents q).toNat / 100) ++
      '.' :: twoDigits ((amountCents q).toNat % 100)

/-- The two validation errors `build_upi_payload` raises (`ValueError`
messages "Invalid UPI ID" and "Amount must be greater than zero"). -/
inductive UPIError where
  | invalidAddress : UPIError
  | invalidAmount : UPIError
deriving DecidableEq

/-- The ordered parameter dict built by `build_upi_payload`: `pa`, `pn`,
`am`, `cu`, and `tn` only when the (raw) note is non-empty — Python's
`if note:` tests truthiness, i.e. non-emptiness, of the untrimmed note. -/
def upiParams (upi_id name : List Char) (amount : ℚ) (currency note : List Char) :
    List (List Char × List Char) :=
  [("pa".toList, pyStrip upi_id),
   ("pn".toList, pyStrip name),
   ("am".toList, formatAmount amount),
   ("cu".toList, currency)] ++
  (if note.isEmpty then [] else [("tn".toList, pyStrip note)])

/-- `build_upi_payload` from `qr.py`: validate the UPI id and the amount,
then assemble `upi://pay?` followed by the url-encoded parameters. -/
def build_upi_payload (upi_id name : List Char) (amount : ℚ) (currency note : List Char) :
    Except UPIError (List Char) :=
  if upi_id.isEmpty || !(upi_id.contains '@') then .error .invalidAddress
  else if amount ≤ 0 then .error .invalidAmount
  else .ok ("upi://pay?".toList ++ urlencode (upiParams upi_id name amount currency note))

/-- QR error-correction levels of the `qrcode` library. -/
inductive ECLevel where
  | L : ECLevel
  | M : ECLevel
  | Q : ECLevel
  | H : ECLevel
deriving DecidableEq

/-- The full set of arguments `QRService.create_qr` passes to the QR and
image libraries (external primitives), recorded as data: the `QRCode`
constructor arguments, `make(fit=...)`, the `make_image` colors, the
`convert` mode, and the `save` arguments. -/
structure QRCall where
  version : Option Nat
  error_correction : ECLevel
  box_size : Nat
  border : Nat
  fit : Bool
  data : List Char
  fill_color : List Char
  back_color : List Char
  convert_mode : List Char
  save_format : List Char
  save_optimize : Bool
deriving DecidableEq

/-- `QRService.create_qr` from `qr.py` as the library call it performs:
`version=None` with `fit=True` (smallest symbol that fits), error
correction `H`, `box_size=10`, `border=4`, dark modules `#0f172a` on
white, converted to RGB and saved as optimized PNG. -/
def create_qr (data : List Char) : QRCall :=
  { version := none
    error_correction := ECLevel.H
    box_size := 10
    border := 4
    fit := true
    data := data
    fill_color := "#0f172a".toList
    back_color := "white".toList
    convert_mode := "RGB".toList
    save_format := "PNG".toList
    save_optimize := true }

/-- Round half to even, stated with the standard mathematical vocabulary
(`Int.floor` and `Int.fract`): the reference rounding rule against which
the integer arithmetic of `rheInt` is checked. -/
def roundHalfEven (x : ℚ) : ℤ :=
  if Int.fract x < 1 / 2 then ⌊x⌋
  else if 1 / 2 < Int.fract x then ⌊x⌋ + 1
  else if ⌊x⌋ % 2 = 0 then ⌊x⌋ else ⌊x⌋ + 1

/-! ## Structural lemmas about percent-encoding and the URI shape -/

theorem quote_plus_cons (c : Char) (s : List Char) :
    quote_plus (c :: s) = quoteChar c ++ quote_plus s := rfl

theorem quote_plus_eq_self {s : List Char} (h : ∀ c ∈ s, quoteChar c = [c]) :
    quote_plus s = s := by
  induction s with
  | nil => rfl
  | cons c r ih =>
    rw [quote_plus_cons, h c (List.mem_cons_self c r),
      ih fun d hd => h d (List.mem_cons_of_mem c hd)]
    rfl

theorem quoteChar_decDigit : ∀ d, d < 10 → quoteChar (decDigit d) = [decDigit d] := by decide

theorem natDigitsAux_mem : ∀ (fuel n : Nat) (acc : List Char) (c : Char),
    c ∈ natDigitsAux fuel n acc → (∃ d, d < 10 ∧ c = decDigit d) ∨ c ∈ acc := by
  intro fuel
  induction fuel with
  | zero => intro n acc c hc; exact Or.inr hc
  | succ f ih =>
    intro n acc c hc
    rw [natDigitsAux] at hc
    split at hc
    · rcases List.mem_cons.mp hc with h | h
      · exact Or.inl ⟨n, by omega, h⟩
      · exact Or.inr h
    · rcases ih (n / 10) (decDigit (n % 10) :: acc) c hc with h | h
      · exact Or.inl h
      · rcases List.mem_cons.mp h with h | h
        · exact Or.inl ⟨n % 10, by omega, h⟩
        · exact Or.inr h

theorem natDigits_mem {n : Nat} {c : Char} (hc : c ∈ natDigits n) :
    ∃ d, d < 10 ∧ c = decDigit d := by
  rcases natDigitsAux_mem (n + 1) n [] c hc with h | h
  · exact h
  · cases h

theorem formatAmount_chars (q : ℚ) : ∀ c ∈ formatAmount q, quoteChar c = [c] := by
  have hdig : ∀ m : Nat, m < 100 → ∀ c ∈ twoDigits m, quoteChar c = [c] := by
    intro m hm c hcm
    rcases List.mem_cons.mp hcm with h | h
    · subst h; exact quoteChar_decDigit _ (by omega)
    · rcases List.mem_cons.mp h with h | h
      · subst h; exact quoteChar_decDigit _ (by omega)
      · cases h
  have hnat : ∀ (n : Nat) (c : Char), c ∈ natDigits n → quoteChar c = [c] := by
    intro n c hc
    rcases natDigits_mem hc with ⟨d, hd, rfl⟩
    exact quoteChar_decDigit d hd
  intro c hc
  unfold formatAmount at hc
  split at hc
  · rcases List.mem_cons.mp hc with h | h
    · subst h; decide
    · rcases List.mem_append.mp h with h | h
      · exact hnat _ _ h
      · rcases List.mem_cons.mp h with h | h
        · subst h; decide
        · exact hdig _ (by omega) _ h
  · rcases List.mem_append.mp hc with h | h
    · exact hnat _ _ h
    · rcases List.mem_cons.mp h with h | h
      · subst h; decide
      · exact hdig _ (by omega) _ h

theorem quote_plus_formatAmount (q : ℚ) : quote_plus (formatAmount q) = formatAmount q :=
  quote_plus_eq_self (formatAmount_chars q)

theorem qp_key_pa : quote_plus "pa".toList = "pa".toList := by decide

theorem qp_key_pn : quote_plus "pn".toList = "pn".toList := by decide

theorem qp_key_am : quote_plus "am".toList = "am".toList := by decide

theorem qp_key_cu : quote_plus "cu".toList = "cu".toList := by decide

theorem qp_key_tn : quote_plus "tn".toList = "tn".toList := by decide

theorem chunk_pa : "pa=".toList = "pa".toList ++ ['='] := by decide

theorem chunk_pn : "&pn=".toList = '&' :: ("pn".toList ++ ['=']) := by decide

theorem chunk_am : "&am=".toList = '&' :: ("am".toList ++ ['=']) := by decide

theorem chunk_cu : "&cu=".toList = '&' :: ("cu".toList ++ ['=']) := by decide

theorem chunk_tn : "&tn=".toList = '&' :: ("tn".toList ++ ['=']) := by decide

theorem urlencode_upiParams (u n : List Char) (q : ℚ) (c t : List Char) :
    urlencode (upiParams u n q c t) =
      "pa=".toList ++ quote_plus (pyStrip u) ++
      "&pn=".toList ++ quote_plus (pyStrip n) ++
      "&am=".toList ++ formatAmount q ++
      "&cu=".toList ++ quote_plus c ++
      (if t.isEmpty then [] else "&tn=".toList ++ quote_plus (pyStrip t)) := by
  rw [← quote_plus_formatAmount q]
  cases ht : t.isEmpty <;>
    simp only [upiParams, ht, Bool.false_eq_true, if_false, if_true, urlencode, encPair,
      qp_key_pa, qp_key_pn, qp_key_am, qp_key_cu, qp_key_tn,
      chunk_pa, chunk_pn, chunk_am, chunk_cu, chunk_tn,
      List.append_assoc, List.cons_append, List.singleton_append, List.nil_append,
      List.append_nil]

theorem chunk_head : "upi://pay?pa=".toList = "upi://pay?".toList ++ "pa=".toList := by decide

theorem build_shape (u n : List Char) (q : ℚ) (c t : List Char)
    (h1 : (u.isEmpty || !u.contains '@') = false) (h2 : ¬ q ≤ 0) :
    build_upi_payload u n q c t =
      Except.ok ("upi://pay?pa=".toList ++ quote_plus (pyStrip u) ++
        "&pn=".toList ++ quote_plus (pyStrip n) ++
        "&am=".toList ++ formatAmount q ++
        "&cu=".toList ++ quote_plus c ++
        (if t.isEmpty then [] else "&tn=".toList ++ quote_plus (pyStrip t))) := by
  rw [build_upi_payload, if_neg (by rw [h1]; exact Bool.false_ne_true), if_neg h2,
    urlencode_upiParams, chunk_head]
  simp only [List.append_assoc]

theorem build_ok_inv {u n c t s : List Char} {q : ℚ}
    (h : build_upi_payload u n q c t = Except.ok s) :
    (u.isEmpty || !u.contains '@') = false ∧ ¬ q ≤ 0 ∧
      s = "upi://pay?pa=".toList ++ quote_plus (pyStrip u) ++
        "&pn=".toList ++ quote_plus (pyStrip n) ++
        "&am=".toList ++ formatAmount q ++
        "&cu=".toList ++ quote_plus c ++
        (if t.isEmpty then [] else "&tn=".toList ++ quote_plus (pyStrip t)) := by
  by_cases h1 : (u.isEmpty || !u.contains '@') = true
  · rw [build_upi_payload, if_pos h1] at h
    cases h
  · have h1f : (u.isEmpty || !u.contains '@') = false := by
      cases hb : (u.isEmpty || !u.contains '@')
      · rfl
      · exact absurd hb h1
    by_cases h2 : q ≤ 0
    · rw [build_upi_payload, if_neg h1, if_pos h2] at h
      cases h
    · refine ⟨h1f, h2, ?_⟩
      rw [build_shape u n q c t h1f h2] at h
      exact (Except.ok.injEq _ _).mp h.symm

/-! ## Non-negativity of the serialized cents for accepted amounts -/

theorem amountCents_nonneg {q : ℚ} (h : ¬ q ≤ 0) : 0 ≤ amountCents q := by
  have hq : 0 < q := lt_of_not_le h
  have hnum : 0 < q.num := Rat.num_pos.mpr hq
  have hbZ : (0 : ℤ) < (q.den : ℤ) := by exact_mod_cast q.pos
  have ha : 0 ≤ q.num * 100 := by positivity
  have hf : 0 ≤ q.num * 100 / (q.den : ℤ) := Int.ediv_nonneg ha (le_of_lt hbZ)
  unfold amountCents rheInt
  split
  · exact hf
  · split
    · omega
    · split
      · exact hf
      · omega

/-! ## Percent-decoding inverts percent-encoding -/

theorem char_toNat_lt (c : Char) : c.toNat < 1114112 := by
  have he : c.toNat = c.val.toNat := rfl
  rcases c.valid with h | ⟨h1, h2⟩
  · have hx : c.val.toNat < 55296 := h
    omega
  · have hx : c.val.toNat < 1114112 := h2
    omega

theorem hexVal_hexDigitChar : ∀ d, d < 16 → hexVal (hexDigitChar d) = some d := by decide

theorem readEsc_escape (b : Nat) (hb : b < 256) (t : List Char) :
    readEsc ('%' :: hexDigitChar (b / 16) :: hexDigitChar (b % 16) :: t) = some (b, t) := by
  have h1 := hexVal_hexDigitChar (b / 16) (by omega)
  have h2 := hexVal_hexDigitChar (b % 16) (by omega)
  simp only [readEsc, h1, h2]
  rw [Nat.div_add_mod]

theorem escByte_cons (b : Nat) (t : List Char) :
    escByte b ++ t = '%' :: hexDigitChar (b / 16) :: hexDigitChar (b % 16) :: t := rfl

theorem readEncoded_one (b0 : Nat) (h : b0 < 128) (t : List Char) :
    readEncoded (escByte b0 ++ t) = some (Char.ofNat b0, t) := by
  rw [escByte_cons]
  simp only [readEncoded, readEsc_escape b0 (by omega) t, if_pos h]


theorem isContByte_true {b : Nat} (h1 : 128 ≤ b) (h2 : b < 192) : isContByte b = true := by
  simp only [isContByte, Bool.and_eq_true, decide_eq_true_eq]
  omega

theorem readEncoded_two (b0 b1 : Nat) (h0 : 194 ≤ b0 ∧ b0 < 224) (h1 : 128 ≤ b1 ∧ b1 < 192)
    (t : List Char) :
    readEncoded (escByte b0 ++ (escByte b1 ++ t)) =
      some (Char.ofNat ((b0 - 192) * 64 + (b1 - 128)), t) := by
  rw [escByte_cons b1, escByte_cons b0]
  simp only [readEncoded, readEsc_escape b0 (by omega) _, readEsc_escape b1 (by omega) t,
    if_neg (show ¬ b0 < 128 by omega), if_neg (show ¬ b0 < 194 by omega),
    if_pos (show b0 < 224 by omega), if_pos (isContByte_true h1.1 h1.2)]

theorem readEncoded_three (b0 b1 b2 : Nat) (h0 : 224 ≤ b0 ∧ b0 < 240)
    (h1 : 128 ≤ b1 ∧ b1 < 192) (h2 : 128 ≤ b2 ∧ b2 < 192) (t : List Char) :
    readEncoded (escByte b0 ++ (escByte b1 ++ (escByte b2 ++ t))) =
      some (Char.ofNat ((b0 - 224) * 4096 + (b1 - 128) * 64 + (b2 - 128)), t) := by
  rw [escByte_cons b2, escByte_cons b1, escByte_cons b0]
  simp only [readEncoded, readEsc_escape b0 (by omega) _, readEsc_escape b1 (by omega) _,
    readEsc_escape b2 (by omega) t,
    if_neg (show ¬ b0 < 128 by omega), if_neg (show ¬ b0 < 194 by omega),
    if_neg (show ¬ b0 < 224 by omega), if_pos (show b0 < 240 by omega),
    if_pos (isContByte_true h1.1 h1.2), if_pos (isContByte_true h2.1 h2.2)]

theorem readEncoded_four (b0 b1 b2 b3 : Nat) (h0 : 240 ≤ b0 ∧ b0 < 248)
    (h1 : 128 ≤ b1 ∧ b1 < 192) (h2 : 128 ≤ b2 ∧ b2 < 192) (h3 : 128 ≤ b3 ∧ b3 < 192)
    (t : List Char) :
    readEncoded (escByte b0 ++ (escByte b1 ++ (escByte b2 ++ (escByte b3 ++ t)))) =
      some (Char.ofNat ((b0 - 240) * 262144 + (b1 - 128) * 4096 +
        (b2 - 128) * 64 + (b3 - 128)), t) := by
  rw [escByte_cons b3, escByte_cons b2, escByte_cons b1, escByte_cons b0]
  simp only [readEncoded, readEsc_escape b0 (by omega) _, readEsc_escape b1 (by omega) _,
    readEsc_escape b2 (by omega) _, readEsc_escape b3 (by omega) t,
    if_neg (show ¬ b0 < 128 by omega), if_neg (show ¬ b0 < 194 by omega),
    if_neg (show ¬ b0 < 224 by omega), if_neg (show ¬ b0 < 240 by omega),
    if_pos (show b0 < 248 by omega),
    if_pos (isContByte_true h1.1 h1.2), if_pos (isContByte_true h2.1 h2.2),
    if_pos (isContByte_true h3.1 h3.2)]

theorem readEncoded_escapes (c : Char) (t : List Char) :
    readEncoded ((utf8Bytes c.toNat).foldr (fun b acc => escByte b ++ acc) [] ++ t) =
      some (c, t) := by
  have hlt : c.toNat < 1114112 := char_toNat_lt c
  by_cases h1 : c.toNat < 128
  · rw [show utf8Bytes c.toNat = [c.toNat] from by rw [utf8Bytes, if_pos h1]]
    simp only [List.foldr, List.append_nil]
    rw [readEncoded_one _ h1, Char.ofNat_toNat]
  · by_cases h2 : c.toNat < 2048
    · rw [show utf8Bytes c.toNat = [192 + c.toNat / 64, 128 + c.toNat % 64] from by
        rw [utf8Bytes, if_neg h1, if_pos h2]]
      simp only [List.foldr, List.append_nil, List.append_assoc]
      rw [readEncoded_two _ _ (by omega) (by omega),
        show (192 + c.toNat / 64 - 192) * 64 + (128 + c.toNat % 64 - 128) = c.toNat by omega,
        Char.ofNat_toNat]
    · by_cases h3 : c.toNat < 65536
      · rw [show utf8Bytes c.toNat =
            [224 + c.toNat / 4096, 128 + c.toNat / 64 % 64, 128 + c.toNat % 64] from by
          rw [utf8Bytes, if_neg h1, if_neg h2, if_pos h3]]
        simp only [List.foldr, List.append_nil, List.append_assoc]
        rw [readEncoded_three _ _ _ (by omega) (by omega) (by omega),
          show (224 + c.toNat / 4096 - 224) * 4096 + (128 + c.toNat / 64 % 64 - 128) * 64 +
            (128 + c.toNat % 64 - 128) = c.toNat by omega,
          Char.ofNat_toNat]
      · rw [show utf8Bytes c.toNat = [240 + c.toNat / 262144, 128 + c.toNat / 4096 % 64,
            128 + c.toNat / 64 % 64, 128 + c.toNat % 64] from by
          rw [utf8Bytes, if_neg h1, if_neg h2, if_neg h3]]
        simp only [List.foldr, List.append_nil, List.append_assoc]
        rw [readEncoded_four _ _ _ _ (by omega) (by omega) (by omega) (by omega),
          show (240 + c.toNat / 262144 - 240) * 262144 + (128 + c.toNat / 4096 % 64 - 128) * 4096 +
            (128 + c.toNat / 64 % 64 - 128) * 64 + (128 + c.toNat % 64 - 128) = c.toNat by omega,
          Char.ofNat_toNat]



theorem eq_of_beq_char {c d : Char} (h : (c == d) = true) : c = d := eq_of_beq h

theorem safe_ne_plus {c : Char} (h : isSafeChar c = true) : (c == '+') = false := by
  cases hq : c == '+'
  · rfl
  · have hc : c = '+' := eq_of_beq hq
    subst hc
    exact absurd h (by decide)

theorem safe_ne_pct {c : Char} (h : isSafeChar c = true) : (c == '%') = false := by
  cases hq : c == '%'
  · rfl
  · have hc : c = '%' := eq_of_beq hq
    subst hc
    exact absurd h (by decide)

theorem unquoteAux_quoteChar (f : Nat) (c : Char) (t : List Char) :
    unquoteAux (f + 1) (quoteChar c ++ t) = c :: unquoteAux f t := by
  by_cases hsp : (c == ' ') = true
  · have hc : c = ' ' := eq_of_beq hsp
    subst hc
    rfl
  · have hspf : (c == ' ') = false := by cases hq : c == ' ' <;> simp_all
    by_cases hsafe : isSafeChar c = true
    · rw [show quoteChar c ++ t = c :: t from by rw [quoteChar, if_neg (by simp [hspf]), if_pos hsafe]; rfl]
      rw [unquoteAux, if_neg (by simp [safe_ne_plus hsafe]), if_neg (by simp [safe_ne_pct hsafe])]
    · have hsafef : isSafeChar c = false := by cases hq : isSafeChar c <;> simp_all
      have hq : quoteChar c = (utf8Bytes c.toNat).foldr (fun b acc => escByte b ++ acc) [] := by
        rw [quoteChar, if_neg (by simp [hspf]), if_neg (by simp [hsafef])]
      have hhead : ∃ r, quoteChar c ++ t = '%' :: r := by
        rw [hq]
        have h1 : c.toNat < 1114112 := char_toNat_lt c
        by_cases ha : c.toNat < 128
        · rw [utf8Bytes, if_pos ha]; exact ⟨_, rfl⟩
        · by_cases hb : c.toNat < 2048
          · rw [utf8Bytes, if_neg ha, if_pos hb]; exact ⟨_, rfl⟩
          · by_cases hc3 : c.toNat < 65536
            · rw [utf8Bytes, if_neg ha, if_neg hb, if_pos hc3]; exact ⟨_, rfl⟩
            · rw [utf8Bytes, if_neg ha, if_neg hb, if_neg hc3]; exact ⟨_, rfl⟩
      obtain ⟨r, hr⟩ := hhead
      rw [hr, unquoteAux, if_neg (by decide), if_pos (by decide)]
      rw [← hr, hq, readEncoded_escapes c t]

theorem quoteChar_ne_nil (c : Char) : quoteChar c ≠ [] := by
  rw [quoteChar]
  split
  · simp
  · split
    · simp
    · rw [utf8Bytes]
      split
      · simp [escByte]
      · split
        · simp [escByte]
        · split
          · simp [escByte]
          · simp [escByte]

theorem quote_plus_length (s : List Char) : s.length ≤ (quote_plus s).length := by
  induction s with
  | nil => simp [quote_plus]
  | cons c r ih =>
    rw [quote_plus_cons, List.length_append]
    have h : 1 ≤ (quoteChar c).length :=
      List.length_pos.mpr (quoteChar_ne_nil c)
    simp only [List.length_cons]
    omega

theorem unquoteAux_quote_plus :
    ∀ (s : List Char) (f : Nat), s.length ≤ f → unquoteAux f (quote_plus s) = s := by
  intro s
  induction s with
  | nil =>
    intro f _
    cases f
    · rfl
    · rfl
  | cons c r ih =>
    intro f hf
    obtain ⟨g, rfl⟩ : ∃ g, f = g + 1 := ⟨f - 1, by simp at hf; omega⟩
    rw [quote_plus_cons, unquoteAux_quoteChar g c (quote_plus r),
      ih g (by simp at hf; omega)]

theorem unquotePlus_quote_plus (s : List Char) : unquotePlus (quote_plus s) = s :=
  unquoteAux_quote_plus s (quote_plus s).length (quote_plus_length s)

theorem utf8Bytes_lt (n : Nat) (hn : n < 1114112) : ∀ b ∈ utf8Bytes n, b < 256 := by
  intro b hb
  rw [utf8Bytes] at hb
  split at hb
  · simp at hb; omega
  · split at hb
    · simp at hb; rcases hb with h | h <;> omega
    · split at hb
      · simp at hb; rcases hb with h | h | h <;> omega
      · simp at hb; rcases hb with h | h | h | h <;> omega

theorem quoteChar_classes {c d : Char} (hd : d ∈ quoteChar c) :
    d = '+' ∨ isSafeChar d = true ∨ d = '%' ∨ ∃ k, k < 16 ∧ d = hexDigitChar k := by
  rw [quoteChar] at hd
  split at hd
  · simp at hd; exact Or.inl hd
  · split at hd
    · next hsafe =>
      simp at hd
      subst hd
      exact Or.inr (Or.inl hsafe)
    · have hmem : ∀ (bs : List Nat), (∀ b ∈ bs, b < 256) →
          d ∈ bs.foldr (fun b acc => escByte b ++ acc) [] →
          d = '%' ∨ ∃ k, k < 16 ∧ d = hexDigitChar k := by
        intro bs
        induction bs with
        | nil => intro _ h; cases h
        | cons b bs ihb =>
          intro hlt h
          rcases List.mem_append.mp h with h | h
          · rcases List.mem_cons.mp h with h | h
            · exact Or.inl h
            · rcases List.mem_cons.mp h with h | h
              · exact Or.inr ⟨b / 16, by
                  have := hlt b (List.mem_cons_self b bs)
                  omega, h⟩
              · rcases List.mem_cons.mp h with h | h
                · exact Or.inr ⟨b % 16, by omega, h⟩
                · cases h
          · exact ihb (fun x hx => hlt x (List.mem_cons_of_mem b hx)) h
      rcases hmem (utf8Bytes c.toNat) (utf8Bytes_lt c.toNat (char_toNat_lt c)) hd with h | h
      · exact Or.inr (Or.inr (Or.inl h))
      · exact Or.inr (Or.inr (Or.inr h))

theorem amp_not_mem_quote_plus (s : List Char) : '&' ∉ quote_plus s := by
  induction s with
  | nil => simp [quote_plus]
  | cons c r ih =>
    rw [quote_plus_cons]
    intro h
    rcases List.mem_append.mp h with h | h
    · rcases quoteChar_classes h with h | h | h | ⟨k, hk, h⟩
      · cases h
      · exact absurd h (by decide)
      · cases h
      · revert h
        have : ∀ k, k < 16 → ¬ ('&' = hexDigitChar k) := by decide
        exact this k hk
    · exact ih h

theorem eql_not_mem_quote_plus (s : List Char) : '=' ∉ quote_plus s := by
  induction s with
  | nil => simp [quote_plus]
  | cons c r ih =>
    rw [quote_plus_cons]
    intro h
    rcases List.mem_append.mp h with h | h
    · rcases quoteChar_classes h with h | h | h | ⟨k, hk, h⟩
      · cases h
      · exact absurd h (by decide)
      · cases h
      · revert h
        have : ∀ k, k < 16 → ¬ ('=' = hexDigitChar k) := by decide
        exact this k hk
    · exact ih h

theorem splitSep_ne_nil (sep : Char) (s : List Char) : splitSep sep s ≠ [] := by
  cases s with
  | nil => simp [splitSep]
  | cons c r =>
    rw [splitSep]
    cases h : splitSep sep r with
    | nil => simp
    | cons g gs =>
      simp only [h]
      split <;> simp

theorem splitSep_no_sep {sep : Char} : ∀ {s : List Char}, sep ∉ s → splitSep sep s = [s] := by
  intro s
  induction s with
  | nil => intro _; rfl
  | cons c r ih =>
    intro h
    have hc : (c == sep) = false := by
      cases hq : c == sep
      · rfl
      · exact absurd (List.mem_cons.mpr (Or.inl (eq_of_beq hq).symm)) h
    rw [splitSep, ih (fun hm => h (List.mem_cons_of_mem c hm))]
    simp [hc]

theorem splitSep_append {sep : Char} : ∀ {a : List Char} (b : List Char), sep ∉ a →
    splitSep sep (a ++ sep :: b) = a :: splitSep sep b := by
  intro a
  induction a with
  | nil =>
    intro b _
    rw [List.nil_append, splitSep]
    cases h : splitSep sep b with
    | nil => exact absurd h (splitSep_ne_nil sep b)
    | cons g gs => simp
  | cons c a ih =>
    intro b h
    have hc : (c == sep) = false := by
      cases hq : c == sep
      · rfl
      · exact absurd (List.mem_cons.mpr (Or.inl (eq_of_beq hq).symm)) h
    rw [List.cons_append, splitSep, ih b (fun hm => h (List.mem_cons_of_mem c hm))]
    simp [hc]

theorem splitEq_append : ∀ {k : List Char} (v : List Char), '=' ∉ k →
    splitEq (k ++ '=' :: v) = (k, v) := by
  intro k
  induction k with
  | nil => intro v _; rfl
  | cons c k ih =>
    intro v h
    have hc : (c == '=') = false := by
      cases hq : c == '='
      · rfl
      · exact absurd (List.mem_cons.mpr (Or.inl (eq_of_beq hq).symm)) h
    rw [List.cons_append, splitEq, ih v (fun hm => h (List.mem_cons_of_mem c hm))]
    simp [hc]

theorem amp_not_mem_encPair (p : List Char × List Char) : '&' ∉ encPair p := by
  intro h
  rcases List.mem_append.mp h with h | h
  · exact amp_not_mem_quote_plus p.1 h
  · rcases List.mem_cons.mp h with h | h
    · cases h
    · exact amp_not_mem_quote_plus p.2 h

theorem parseQS_encPair (p : List Char × List Char) :
    parseQS (encPair p) = [p] := by
  rw [parseQS, splitSep_no_sep (amp_not_mem_encPair p)]
  simp only [List.map]
  rw [show encPair p = quote_plus p.1 ++ '=' :: quote_plus p.2 from rfl,
    splitEq_append _ (eql_not_mem_quote_plus p.1)]
  simp [unquotePlus_quote_plus]

theorem parseQS_urlencode : ∀ (ps : List (List Char × List Char)), ps ≠ [] →
    parseQS (urlencode ps) = ps := by
  intro ps
  induction ps with
  | nil => intro h; exact absurd rfl h
  | cons p ps ih =>
    intro _
    cases ps with
    | nil => exact parseQS_encPair p
    | cons q ps =>
      rw [show urlencode (p :: q :: ps) = encPair p ++ '&' :: urlencode (q :: ps) from rfl]
      rw [parseQS, splitSep_append _ (amp_not_mem_encPair p)]
      simp only [List.map]
      rw [show encPair p = quote_plus p.1 ++ '=' :: quote_plus p.2 from rfl,
        splitEq_append _ (eql_not_mem_quote_plus p.1)]
      have ht := ih (by simp)
      rw [parseQS] at ht
      simp only [unquotePlus_quote_plus]
      rw [ht]


/-! ## The integer cents computation implements round-half-to-even -/

/-- `rheInt` on numerator and denominator agrees with the standard
round-half-to-even rule applied to the rational `q * 100`. -/
theorem amountCents_eq_roundHalfEven (q : ℚ) : amountCents q = roundHalfEven (q * 100) := by
  have hbZ : (0 : ℤ) < (q.den : ℤ) := by exact_mod_cast q.pos
  have hbQ : (0 : ℚ) < ((q.den : ℤ) : ℚ) := by exact_mod_cast hbZ
  have hx : q * 100 = ((q.num * 100 : ℤ) : ℚ) / ((q.den : ℤ) : ℚ) := by
    conv_lhs => rw [← Rat.num_div_den q]
    push_cast
    ring
  have hfl : ⌊q * 100⌋ = q.num * 100 / (q.den : ℤ) := by
    rw [hx]
    have h := Rat.floor_intCast_div_natCast (q.num * 100) q.den
    push_cast at h ⊢
    exact h
  have hid : (q.den : ℤ) * (q.num * 100 / (q.den : ℤ)) + q.num * 100 % (q.den : ℤ)
      = q.num * 100 := Int.ediv_add_emod _ _
  have hfrq : ((q.num * 100 % (q.den : ℤ) : ℤ) : ℚ) =
      ((q.num * 100 : ℤ) : ℚ) - ((q.den : ℤ) : ℚ) * ((q.num * 100 / (q.den : ℤ) : ℤ) : ℚ) := by
    have h : (q.num * 100 % (q.den : ℤ) : ℤ) =
        q.num * 100 - (q.den : ℤ) * (q.num * 100 / (q.den : ℤ)) := by omega
    exact_mod_cast congrArg (fun z : ℤ => (z : ℚ)) h
  have hfr : Int.fract (q * 100) =
      ((q.num * 100 % (q.den : ℤ) : ℤ) : ℚ) / ((q.den : ℤ) : ℚ) := by
    rw [Int.fract, hfl, hx, hfrq, sub_div, mul_div_cancel_left₀ _ (ne_of_gt hbQ)]
  have hlt : Int.fract (q * 100) < 1 / 2 ↔
      2 * (q.num * 100 % (q.den : ℤ)) < (q.den : ℤ) := by
    rw [hfr, div_lt_div_iff₀ hbQ (by norm_num : (0:ℚ) < 2), one_mul, mul_comm]
    norm_cast
  have hgt : 1 / 2 < Int.fract (q * 100) ↔
      (q.den : ℤ) < 2 * (q.num * 100 % (q.den : ℤ)) := by
    rw [hfr, div_lt_div_iff₀ (by norm_num : (0:ℚ) < 2) hbQ, one_mul, mul_comm]
    norm_cast
  unfold amountCents rheInt roundHalfEven
  rw [hfl]
  by_cases h1 : 2 * (q.num * 100 % (q.den : ℤ)) < (q.den : ℤ)
  · rw [if_pos h1, if_pos (hlt.mpr h1)]
  · rw [if_neg h1, if_neg (fun hc => h1 (hlt.mp hc))]
    by_cases h2 : (q.den : ℤ) < 2 * (q.num * 100 % (q.den : ℤ))
    · rw [if_pos h2, if_pos (hgt.mpr h2)]
    · rw [if_neg h2, if_neg (fun hc => h2 (hgt.mp hc))]


/-! ## Inversion of a successful build -/

theorem build_ok_uri {u n c t s : List Char} {q : ℚ}
    (h : build_upi_payload u n q c t = Except.ok s) :
    s = "upi://pay?".toList ++ urlencode (upiParams u n q c t) := by
  obtain ⟨h1, h2, _⟩ := build_ok_inv h
  rw [build_upi_payload, if_neg (by rw [h1]; exact Bool.false_ne_true), if_neg h2] at h
  exact ((Except.ok.injEq _ _).mp h).symm

theorem upiParams_ne_nil (u n : List Char) (q : ℚ) (c t : List Char) :
    upiParams u n q c t ≠ [] := by
  rw [upiParams]
  cases t.isEmpty <;> simp

theorem queryOf_header (x : List Char) : queryOf ("upi://pay?".toList ++ x) = x := by
  rw [queryOf]
  have h : ("upi://pay?".toList).length = 10 := rfl
  rw [← h, List.drop_left]

theorem parseQS_build {u n c t s : List Char} {q : ℚ}
    (h : build_upi_payload u n q c t = Except.ok s) :
    parseQS (queryOf s) = upiParams u n q c t := by
  rw [build_ok_uri h, queryOf_header, parseQS_urlencode _ (upiParams_ne_nil u n q c t)]

/-! ## The claims -/

/-- Claim C1: on the concrete input (payeeAddress `shop@upi`, payeeName
`My Shop`, amount 150.0, currency `INR`, empty note), `build_upi_payload`
returns exactly `upi://pay?pa=shop%40upi&pn=My+Shop&am=150.00&cu=INR`. -/
theorem upi_uri_concrete_scenario :
    build_upi_payload "shop@upi".toList "My Shop".toList 150 "INR".toList "".toList =
      Except.ok "upi://pay?pa=shop%40upi&pn=My+Shop&am=150.00&cu=INR".toList := by
  decide

/-- Claim C2 (counterexample): for the whitespace-only note `" "` the
returned URI does contain a `tn` parameter (with empty value), refuting
"if the note consists only of whitespace, the URI contains no tn
parameter at all". -/
theorem whitespace_note_emits_tn_cex :
    build_upi_payload "shop@upi".toList "My Shop".toList 150 "INR".toList " ".toList =
      Except.ok "upi://pay?pa=shop%40upi&pn=My+Shop&am=150.00&cu=INR&tn=".toList ∧
    "tn".toList ∈ queryKeys "upi://pay?pa=shop%40upi&pn=My+Shop&am=150.00&cu=INR&tn=".toList :=
  ⟨by decide, by decide⟩

/-- Claim C2 (amended): the URI contains a `tn` parameter exactly when the
note is non-empty (Python's `if note:` tests raw non-emptiness, not
non-whitespace); when present, its decoded value is the trimmed note —
which is the empty string for a whitespace-only note. -/
theorem tn_param_iff_note_nonempty (u n c t s : List Char) (q : ℚ)
    (h : build_upi_payload u n q c t = Except.ok s) :
    ("tn".toList ∈ queryKeys s ↔ t ≠ []) ∧
    (t ≠ [] → ("tn".toList, pyStrip t) ∈ parseQS (queryOf s)) := by
  have hp : parseQS (queryOf s) = upiParams u n q c t := parseQS_build h
  rw [queryKeys, hp]
  have hne : ∀ ht : t ≠ [], t.isEmpty = false := by
    intro ht
    cases t with
    | nil => exact absurd rfl ht
    | cons a b => rfl
  refine ⟨⟨?_, ?_⟩, ?_⟩
  · intro hmem ht
    subst ht
    rw [upiParams] at hmem
    simp at hmem
  · intro ht
    rw [upiParams, hne ht]
    simp
  · intro ht
    rw [upiParams, hne ht]
    simp

/-- Claim C2 (amended) witness at a concrete whitespace-only note. -/
theorem tn_param_iff_note_nonempty_wit :
    ("tn".toList ∈
        queryKeys "upi://pay?pa=shop%40upi&pn=My+Shop&am=150.00&cu=INR&tn=".toList ↔
      " ".toList ≠ []) ∧
    (" ".toList ≠ [] → ("tn".toList, pyStrip " ".toList) ∈
      parseQS (queryOf "upi://pay?pa=shop%40upi&pn=My+Shop&am=150.00&cu=INR&tn=".toList)) :=
  tn_param_iff_note_nonempty "shop@upi".toList "My Shop".toList "INR".toList " ".toList
    "upi://pay?pa=shop%40upi&pn=My+Shop&am=150.00&cu=INR&tn=".toList 150 (by decide)

/-- Claim C3 (counterexample): for empty address and amount 0 the call
fails with `InvalidAddress`, not `InvalidAmount`, although amount ≤ 0 —
refuting "fails with the InvalidAmount error exactly when amount ≤ 0"
(the address check runs first and shadows the amount check). -/
theorem amount_error_shadowed_cex :
    (0 : ℚ) ≤ 0 ∧
    build_upi_payload "".toList "Name".toList 0 "INR".toList "".toList =
      Except.error UPIError.invalidAddress ∧
    build_upi_payload "".toList "Name".toList 0 "INR".toList "".toList ≠
      Except.error UPIError.invalidAmount :=
  ⟨le_refl 0, by decide, by decide⟩

/-- Claim C3 (amended): `InvalidAddress` exactly when the address is empty
or lacks `@`; for inputs passing the address check, `InvalidAmount`
exactly when amount ≤ 0; inputs passing both checks return a URI without
raising. -/
theorem validation_error_cases (u n c t : List Char) (q : ℚ) :
    (build_upi_payload u n q c t = Except.error UPIError.invalidAddress ↔
      (u.isEmpty || !u.contains '@') = true) ∧
    ((u.isEmpty || !u.contains '@') = false →
      (build_upi_payload u n q c t = Except.error UPIError.invalidAmount ↔ q ≤ 0)) ∧
    ((u.isEmpty || !u.contains '@') = false → ¬ q ≤ 0 →
      (build_upi_payload u n q c t).isOk = true) := by
  by_cases h1 : (u.isEmpty || !u.contains '@') = true
  · rw [build_upi_payload, if_pos h1]
    refine ⟨⟨fun _ => h1, fun _ => rfl⟩, fun hf => ?_, fun hf => ?_⟩
    · rw [h1] at hf; cases hf
    · rw [h1] at hf; cases hf
  · have h1f : (u.isEmpty || !u.contains '@') = false := by
      cases hb : (u.isEmpty || !u.contains '@')
      · rfl
      · exact absurd hb h1
    rw [build_upi_payload, if_neg h1]
    by_cases h2 : q ≤ 0
    · rw [if_pos h2]
      refine ⟨⟨fun he => absurd he (by decide), fun ht => ?_⟩,
        fun _ => ⟨fun _ => h2, fun _ => rfl⟩, fun _ hn => absurd h2 hn⟩
      rw [h1f] at ht
      cases ht
    · rw [if_neg h2]
      refine ⟨⟨fun he => ?_, fun ht => ?_⟩,
        fun _ => ⟨fun he => ?_, fun hq => absurd hq h2⟩, fun _ _ => rfl⟩
      · simp at he
      · rw [h1f] at ht; cases ht
      · simp at he

/-- Claim C3 (amended) witness: each of the three cases at a concrete
input. -/
theorem validation_error_cases_wit :
    build_upi_payload "".toList "Name".toList 150 "INR".toList "".toList =
        Except.error UPIError.invalidAddress ∧
    build_upi_payload "shop@upi".toList "Name".toList 0 "INR".toList "".toList =
        Except.error UPIError.invalidAmount ∧
    (build_upi_payload "shop@upi".toList "Name".toList 150 "INR".toList "".toList).isOk
        = true :=
  ⟨(validation_error_cases "".toList "Name".toList "INR".toList "".toList 150).1.mpr
      (by decide),
   ((validation_error_cases "shop@upi".toList "Name".toList "INR".toList "".toList 0).2.1
      (by decide)).mpr (le_refl 0),
   (validation_error_cases "shop@upi".toList "Name".toList "INR".toList "".toList 150).2.2
      (by decide) (by decide)⟩

/-- Claim C4 (counterexample): the address `a@b@c`, which contains two `@`
characters, is accepted — refuting "every address containing two or more
`@` characters is rejected". -/
theorem double_at_address_accepted_cex :
    build_upi_payload "a@b@c".toList "N".toList 1 "INR".toList "".toList =
      Except.ok "upi://pay?pa=a%40b%40c&pn=N&am=1.00&cu=INR".toList ∧
    "a@b@c".toList.count '@' = 2 :=
  ⟨by decide, by decide⟩

/-- Claim C4 (amended): every accepted payee address is non-empty and
contains at least one `@` (the code checks only `"@" in upi_id`, so
addresses with several `@` are accepted as well). -/
theorem accepted_address_contains_at (u n c t s : List Char) (q : ℚ)
    (h : build_upi_payload u n q c t = Except.ok s) :
    u ≠ [] ∧ u.contains '@' = true := by
  obtain ⟨h1, _, _⟩ := build_ok_inv h
  have he : u.isEmpty = false := by
    cases hb : u.isEmpty
    · rfl
    · rw [hb] at h1; simp at h1
  have hc : u.contains '@' = true := by
    cases hb : u.contains '@'
    · rw [hb, he] at h1; simp at h1
    · rfl
  refine ⟨?_, hc⟩
  intro hu
  subst hu
  exact absurd he (by decide)

/-- Claim C4 (amended) witness at a concrete accepted address. -/
theorem accepted_address_contains_at_wit :
    "a@b".toList ≠ [] ∧ "a@b".toList.contains '@' = true :=
  accepted_address_contains_at "a@b".toList "N".toList "INR".toList "".toList
    "upi://pay?pa=a%40b&pn=N&am=1.00&cu=INR".toList 1 (by decide)

/-- Claim C5: for every accepted input the URI's `am` field is the amount
formatted with exactly two digits after the decimal point (two decimal
digit characters after the single dot), and the cents value follows one
fixed standard rounding rule: round half to even applied to
`amount * 100`. -/
theorem am_field_two_decimals_half_even (u n c t s : List Char) (q : ℚ)
    (h : build_upi_payload u n q c t = Except.ok s) :
    (∃ pre post, s = pre ++ "&am=".toList ++ formatAmount q ++ "&cu=".toList ++ post) ∧
    formatAmount q = natDigits ((amountCents q).toNat / 100) ++
      '.' :: twoDigits ((amountCents q).toNat % 100) ∧
    (twoDigits ((amountCents q).toNat % 100)).length = 2 ∧
    (∀ d ∈ twoDigits ((amountCents q).toNat % 100), ∃ k, k < 10 ∧ d = decDigit k) ∧
    '.' ∉ natDigits ((amountCents q).toNat / 100) ∧
    amountCents q = roundHalfEven (q * 100) := by
  obtain ⟨h1, h2, hs⟩ := build_ok_inv h
  have hnn : 0 ≤ amountCents q := amountCents_nonneg h2
  refine ⟨⟨"upi://pay?pa=".toList ++ quote_plus (pyStrip u) ++ "&pn=".toList ++
      quote_plus (pyStrip n), quote_plus c ++
      (if t.isEmpty then [] else "&tn=".toList ++ quote_plus (pyStrip t)), ?_⟩, ?_, rfl, ?_, ?_,
    amountCents_eq_roundHalfEven q⟩
  · rw [hs]
    simp [List.append_assoc]
  · rw [formatAmount, if_neg (not_lt.mpr hnn)]
  · intro d hd
    rcases List.mem_cons.mp hd with hh | hh
    · exact ⟨(amountCents q).toNat % 100 / 10, by omega, hh⟩
    · rcases List.mem_cons.mp hh with hh | hh
      · exact ⟨(amountCents q).toNat % 100 % 10, by omega, hh⟩
      · cases hh
  · intro hdot
    rcases natDigits_mem hdot with ⟨d, hd, hEq⟩
    revert hEq
    have hno : ∀ k, k < 10 → ¬ ('.' = decDigit k) := by decide
    exact hno d hd

/-- Claim C5 witness at amount 150. -/
theorem am_field_two_decimals_half_even_wit :
    (∃ pre post, "upi://pay?pa=shop%40upi&pn=My+Shop&am=150.00&cu=INR".toList =
      pre ++ "&am=".toList ++ formatAmount 150 ++ "&cu=".toList ++ post) ∧
    formatAmount 150 = natDigits ((amountCents 150).toNat / 100) ++
      '.' :: twoDigits ((amountCents 150).toNat % 100) ∧
    (twoDigits ((amountCents 150).toNat % 100)).length = 2 ∧
    (∀ d ∈ twoDigits ((amountCents 150).toNat % 100), ∃ k, k < 10 ∧ d = decDigit k) ∧
    '.' ∉ natDigits ((amountCents 150).toNat / 100) ∧
    amountCents 150 = roundHalfEven (150 * 100) :=
  am_field_two_decimals_half_even "shop@upi".toList "My Shop".toList "INR".toList "".toList
    "upi://pay?pa=shop%40upi&pn=My+Shop&am=150.00&cu=INR".toList 150 (by decide)

/-- Claim C6: for every valid input the returned string has the exact
shape `upi://pay?pa=<enc>&pn=<enc>&am=<amount>&cu=<enc>[&tn=<enc>]` with
the keys in that fixed order, `pa` and `pn` carrying the trimmed address
and name. -/
theorem uri_fixed_field_order (u n c t : List Char) (q : ℚ)
    (h1 : (u.isEmpty || !u.contains '@') = false) (h2 : ¬ q ≤ 0) :
    build_upi_payload u n q c t =
      Except.ok ("upi://pay?pa=".toList ++ quote_plus (pyStrip u) ++
        "&pn=".toList ++ quote_plus (pyStrip n) ++
        "&am=".toList ++ formatAmount q ++
        "&cu=".toList ++ quote_plus c ++
        (if t.isEmpty then [] else "&tn=".toList ++ quote_plus (pyStrip t))) :=
  build_shape u n q c t h1 h2

/-- Claim C6 witness at a concrete input with a note. -/
theorem uri_fixed_field_order_wit :
    build_upi_payload "shop@upi".toList "My Shop".toList 150 "INR".toList "Lunch".toList =
      Except.ok ("upi://pay?pa=".toList ++ quote_plus (pyStrip "shop@upi".toList) ++
        "&pn=".toList ++ quote_plus (pyStrip "My Shop".toList) ++
        "&am=".toList ++ formatAmount 150 ++
        "&cu=".toList ++ quote_plus "INR".toList ++
        (if "Lunch".toList.isEmpty then []
         else "&tn=".toList ++ quote_plus (pyStrip "Lunch".toList))) :=
  uri_fixed_field_order "shop@upi".toList "My Shop".toList "INR".toList "Lunch".toList 150
    (by decide) (by decide)

/-- Claim C7: for every URI produced from a valid input, percent-decoding
its query string into key/value pairs and re-encoding those pairs
reproduces the original query string unchanged. -/
theorem query_decode_reencode_identity (u n c t s : List Char) (q : ℚ)
    (h : build_upi_payload u n q c t = Except.ok s) :
    urlencode (parseQS (queryOf s)) = queryOf s := by
  rw [parseQS_build h, build_ok_uri h, queryOf_header]

/-- Claim C7 witness on the concrete scenario URI. -/
theorem query_decode_reencode_identity_wit :
    urlencode (parseQS
        (queryOf "upi://pay?pa=shop%40upi&pn=My+Shop&am=150.00&cu=INR".toList)) =
      queryOf "upi://pay?pa=shop%40upi&pn=My+Shop&am=150.00&cu=INR".toList :=
  query_decode_reencode_identity "shop@upi".toList "My Shop".toList "INR".toList "".toList
    "upi://pay?pa=shop%40upi&pn=My+Shop&am=150.00&cu=INR".toList 150 (by decide)

/-- Claim C8: `build_upi_payload` is deterministic — two calls on the
same argument tuple return byte-identical URI strings. -/
theorem build_payload_deterministic (u n c t : List Char) (q : ℚ) (s1 s2 : List Char)
    (h1 : build_upi_payload u n q c t = Except.ok s1)
    (h2 : build_upi_payload u n q c t = Except.ok s2) : s1 = s2 := by
  rw [h1] at h2
  exact (Except.ok.injEq _ _).mp h2

/-- Claim C8 witness on the concrete scenario. -/
theorem build_payload_deterministic_wit :
    "upi://pay?pa=shop%40upi&pn=My+Shop&am=150.00&cu=INR".toList =
      "upi://pay?pa=shop%40upi&pn=My+Shop&am=150.00&cu=INR".toList :=
  build_payload_deterministic "shop@upi".toList "My Shop".toList "INR".toList "".toList 150
    _ _ (by decide) (by decide)

/-- Claim C9: for every non-empty input the QR renderer asks the library
for the smallest fitting version (`version=None`, `fit=True`) at error
correction `H`, border 4, box size 10, dark modules `#0f172a` on white,
RGB conversion, and optimized PNG output. -/
theorem qr_render_configuration (d : List Char) (_hd : d ≠ []) :
    (create_qr d).version = none ∧
    (create_qr d).fit = true ∧
    (create_qr d).error_correction = ECLevel.H ∧
    (create_qr d).border = 4 ∧
    (create_qr d).box_size = 10 ∧
    (create_qr d).fill_color = "#0f172a".toList ∧
    (create_qr d).back_color = "white".toList ∧
    (create_qr d).convert_mode = "RGB".toList ∧
    (create_qr d).save_format = "PNG".toList ∧
    (create_qr d).save_optimize = true ∧
    (create_qr d).data = d :=
  ⟨rfl, rfl, rfl, rfl, rfl, rfl, rfl, rfl, rfl, rfl, rfl⟩

/-- Claim C9 witness on the spec's example payload. -/
theorem qr_render_configuration_wit :
    (create_qr "upi://pay?pa=test%40ybl&pn=Shop&am=10.00&cu=INR".toList).version = none ∧
    (create_qr "upi://pay?pa=test%40ybl&pn=Shop&am=10.00&cu=INR".toList).fit = true ∧
    (create_qr "upi://pay?pa=test%40ybl&pn=Shop&am=10.00&cu=INR".toList).error_correction
        = ECLevel.H ∧
    (create_qr "upi://pay?pa=test%40ybl&pn=Shop&am=10.00&cu=INR".toList).border = 4 ∧
    (create_qr "upi://pay?pa=test%40ybl&pn=Shop&am=10.00&cu=INR".toList).box_size = 10 ∧
    (create_qr "upi://pay?pa=test%40ybl&pn=Shop&am=10.00&cu=INR".toList).fill_color
        = "#0f172a".toList ∧
    (create_qr "upi://pay?pa=test%40ybl&pn=Shop&am=10.00&cu=INR".toList).back_color
        = "white".toList ∧
    (create_qr "upi://pay?pa=test%40ybl&pn=Shop&am=10.00&cu=INR".toList).convert_mode
        = "RGB".toList ∧
    (create_qr "upi://pay?pa=test%40ybl&pn=Shop&am=10.00&cu=INR".toList).save_format
        = "PNG".toList ∧
    (create_qr "upi://pay?pa=test%40ybl&pn=Shop&am=10.00&cu=INR".toList).save_optimize
        = true ∧
    (create_qr "upi://pay?pa=test%40ybl&pn=Shop&am=10.00&cu=INR".toList).data
        = "upi://pay?pa=test%40ybl&pn=Shop&am=10.00&cu=INR".toList :=
  qr_render_configuration "upi://pay?pa=test%40ybl&pn=Shop&am=10.00&cu=INR".toList
    (by decide)

/-- Claim C10: the positivity check precedes formatting, so the amount
0.001 (> 0) is accepted yet the URI serializes `am=0.00`. -/
theorem positive_amount_serializes_zero :
    (0 : ℚ) < ⟨1, 1000, by norm_num, Nat.coprime_one_left 1000⟩ ∧
    build_upi_payload "shop@upi".toList "Shop".toList
        ⟨1, 1000, by norm_num, Nat.coprime_one_left 1000⟩ "INR".toList "".toList =
      Except.ok "upi://pay?pa=shop%40upi&pn=Shop&am=0.00&cu=INR".toList :=
  ⟨by decide, by decide⟩

end UPIQR
